import Mathlib

/-!
Shallow embedding of the cossessor incremental embedding pipeline
(`src/embeddings-api/src/core/embed.py`, `core/procs.py`, `utls/io.py`) and of
the query path (`core/procs.py`, `chroma_cli/cli.py`), with theorems settling
the specification claims about it.

External collaborators (hash function, text splitter, embedding provider,
vector store, actor backend) are modelled as parameters or by their contracts;
everything the repository's own code decides is translated line by line.
-/

set_option autoImplicit false

namespace Cossessor

/-! ### Python string primitives used by the path namer (embed.py lines 26-33) -/

/-- Python `s.replace(old, new)` for a single-character `old`: every occurrence
of `c` is replaced by `new`. -/
def replaceChar (c : Char) (new : List Char) (s : List Char) : List Char :=
  s.flatMap (fun a => if a = c then new else [a])

/-- Python `s.lower()`. -/
def pyLower (s : List Char) : List Char := s.map Char.toLower

/-- Python `s.endswith(e)`. -/
def pyEndsWith (s e : String) : Bool := e.data.isSuffixOf s.data

/-- `translate_file_path_to_actor_id` (embed.py line 26): strip `.` and `/`,
lowercase. -/
def translate_file_path_to_actor_id (file_path : String) : String :=
  ⟨pyLower (replaceChar '/' [] (replaceChar '.' [] file_path.data))⟩

/-- `translate_file_path_to_collection_name` (embed.py line 30): strip `.`,
`/`, `-`, truncate to 36 characters, lowercase. -/
def translate_file_path_to_collection_name (file_path : String) : String :=
  ⟨pyLower ((replaceChar '-' [] (replaceChar '/' [] (replaceChar '.' []
    file_path.data))).take 36)⟩

/-- `translate_file_path_to_key` (embed.py line 33): replace `.` with `__`,
lowercase. -/
def translate_file_path_to_key (file_path : String) : String :=
  ⟨pyLower (replaceChar '.' ['_', '_'] file_path.data)⟩

/-! ### Filesystem model and the tree walker (utls/io.py `traverse_folder`) -/

/-- A file: its name and its text content; `none` models a file whose
read/decode raises inside `TextLoader(...).load()`. -/
structure FileEntry where
  name : String
  content : Option String
deriving Repr, DecidableEq

/-- A directory tree: directory name, subdirectories, files. -/
inductive FSTree : Type where
  | node (name : String) (subdirs : List FSTree) (files : List FileEntry)
deriving Repr

def FSTree.name : FSTree → String
  | .node n _ _ => n

/-- The files retained in one directory (io.py lines 27-33): Python's
`if ignore_extensions:` makes an empty list skip filtering entirely; otherwise
names ending with any excluded suffix are dropped. -/
def keptFileNames (ignore_extensions : List String) (files : List FileEntry) :
    List String :=
  if ignore_extensions.isEmpty then files.map (·.name)
  else (files.filter
    (fun f => !(ignore_extensions.any (fun e => pyEndsWith f.name e)))).map (·.name)

mutual
/-- `os.walk(folder_path)` fused with the body of `traverse_folder` (io.py
lines 24-35): yields `(directory path, retained file names)` top-down;
subdirectories whose name is in `ignore_folders` are pruned before descent
(`dirs[:] = [d for d in dirs if d not in ignore_folders]`). -/
def walk (ignore_folders ignore_extensions : List String) (root : String) :
    FSTree → List (String × List String)
  | .node _ subdirs files =>
    (root, keptFileNames ignore_extensions files) ::
      walkSubdirs ignore_folders ignore_extensions root subdirs

/-- Descent into the retained subdirectories, in order. -/
def walkSubdirs (ignore_folders ignore_extensions : List String) (root : String) :
    List FSTree → List (String × List String)
  | [] => []
  | t :: ts =>
    (if t.name ∈ ignore_folders then []
     else walk ignore_folders ignore_extensions (root ++ "/" ++ t.name) t) ++
      walkSubdirs ignore_folders ignore_extensions root ts
end

/-- `traverse_folder` (io.py lines 16-38). `os.walk` over a missing root yields
nothing (default `onerror=None` swallows the listing error), so the returned
mapping is empty; the mapping is the Python dict in insertion order. -/
def traverse_folder (folder_path : String)
    (ignore_folders ignore_extensions : List String) :
    Option FSTree → List (String × List String)
  | none => []
  | some t => walk ignore_folders ignore_extensions folder_path t

/-- The flattening done by `embed_file_system` (embed.py line 46):
`[f"{k}/{f}" for k, v in file_dict.items() for f in v]`. -/
def flattenFileDict (file_dict : List (String × List String)) : List String :=
  file_dict.flatMap (fun kv => kv.2.map (fun f => kv.1 ++ "/" ++ f))

/-! ### The fingerprint mapping (Python dict held in the embedding actor) -/

/-- The value under a file key: the Python dict `{}` (`none`) or `{"hash": h}`
(`some h`). -/
abbrev Entry := Option String

/-- The actor state: a Python dict from string keys to entries, modelled as an
association list whose key uniqueness is maintained by `dictSet`. -/
abbrev AState := List (String × Entry)

/-- Dict lookup, `d.get(k)`. -/
def dictLookup (st : AState) (k : String) : Option Entry :=
  (st.find? (fun p => p.1 == k)).map (·.2)

/-- Dict membership, `k in d`. -/
def dictMem (st : AState) (k : String) : Bool :=
  st.any (fun p => p.1 == k)

/-- Dict assignment `d[k] = v`: overwrite in place, or append a new binding. -/
def dictSet (st : AState) (k : String) (v : Entry) : AState :=
  if dictMem st k then st.map (fun p => if p.1 == k then (k, v) else p)
  else st ++ [(k, v)]

/-- Python truthiness of `actor_state.get("file_path", {}).get("hash", None)`
(embed.py line 85 — the literal string `"file_path"`, not the loop variable):
truthy only when the literal key holds a dict with a non-empty hash string. -/
def filePathHashTruthy (st : AState) : Bool :=
  match dictLookup st "file_path" with
  | some (some h) => h != ""
  | _ => false

/-- Python truthiness of `actor_state.get("file_path", None)` (embed.py
line 102): falsy when the literal key is absent or bound to `{}`; truthy when
bound to a non-empty dict. -/
def filePathEntryTruthy (st : AState) : Bool :=
  match dictLookup st "file_path" with
  | some (some _) => true
  | _ => false

/-! ### The embedding pipeline (core/embed.py `embed_file_system`) -/

/-- An external call made by the pipeline, in program order. -/
inductive Ev : Type where
  /-- `embedding_function.embed_documents(split_texts)` — an embedding-provider
  call for one file. -/
  | embedCall (file_path : String) (texts : List String)
  /-- `vector_store.add_documents(..., ids=ids)` — a vector-store upsert call
  for one file. -/
  | upsert (file_path : String) (ids : List String)
  /-- `await actor.set_state(actor_state)` — the full fingerprint mapping
  persisted. -/
  | save (st : AState)
deriving Repr, DecidableEq

/-- An uncaught exception aborting the per-file loop. -/
inductive RunError : Type where
  /-- `TextLoader(file_path).load()` raised (unreadable or undecodable file). -/
  | unreadable (file_path : String)
  /-- `actor_state[key]["hash"] = hash` raised `KeyError`. -/
  | keyError (key : String)
deriving Repr, DecidableEq

/-- Result of a run: external calls in order, final in-memory actor state, and
the uncaught exception if one aborted the loop. -/
structure RunOut where
  events : List Ev
  state : AState
  err : Option RunError
deriving Repr, DecidableEq

/-- The body of the per-file loop of `embed_file_system` (embed.py
lines 76-106) for one file. `contents` models the filesystem read (`none`: the
loader raises), `hashFn` models `generate_sha256`, `chunkFn` models the text
splitter applied to the file's text. -/
def processFile (contents : String → Option String) (hashFn : String → String)
    (chunkFn : String → List String) (st : AState) (fp : String) :
    List Ev × AState × Option RunError :=
  match contents fp with
  | none => ([], st, some (.unreadable fp))
  | some text =>
    let h := hashFn text
    -- `if file_path in actor_state:` guarding
    -- `if actor_state.get("file_path", {}).get("hash", None): continue`
    if dictMem st fp && filePathHashTruthy st then ([], st, none)
    else
      let texts := chunkFn text
      -- `if not len(split_texts): continue`
      if texts.isEmpty then ([], st, none)
      else
        let ids := (List.range texts.length).map (fun i => fp ++ "_" ++ toString i)
        let key := translate_file_path_to_key fp
        -- `if not actor_state.get("file_path", None): actor_state[key] = {}`
        let st1 := if filePathEntryTruthy st then st else dictSet st key none
        -- `actor_state[key]["hash"] = hash` raises KeyError when `key` is unbound
        if dictMem st1 key then
          let st2 := dictSet st1 key (some h)
          ([.embedCall fp texts, .upsert fp ids, .save st2], st2, none)
        else
          ([.embedCall fp texts, .upsert fp ids], st1, some (.keyError key))

/-- The per-file loop: sequential; an uncaught exception aborts the rest. -/
def runLoop (contents : String → Option String) (hashFn : String → String)
    (chunkFn : String → List String) : List String → AState → RunOut
  | [], st => ⟨[], st, none⟩
  | fp :: rest, st =>
    match processFile contents hashFn chunkFn st fp with
    | (evs, st1, some e) => ⟨evs, st1, some e⟩
    | (evs, st1, none) =>
      let r := runLoop contents hashFn chunkFn rest st1
      ⟨evs ++ r.events, r.state, r.err⟩

/-- `embed_file_system` (embed.py): discover the tree, flatten to full file
paths, then run the per-file loop from the actor state loaded for this root
(`{}` on a first run). -/
def embed_file_system (file_system_path : String)
    (ignore_folders ignore_extensions : List String) (fs : Option FSTree)
    (contents : String → Option String) (hashFn : String → String)
    (chunkFn : String → List String) (actor_state : AState) : RunOut :=
  runLoop contents hashFn chunkFn
    (flattenFileDict
      (traverse_folder file_system_path ignore_folders ignore_extensions fs))
    actor_state

/-- `process_embed_cmd` (core/procs.py lines 12-21): a failing
`os.path.isdir` check is only logged; the run proceeds unconditionally. -/
def process_embed_cmd (file_system_path : String)
    (ignore_folders ignore_extensions : List String) (fs : Option FSTree)
    (contents : String → Option String) (hashFn : String → String)
    (chunkFn : String → List String) (actor_state : AState) : RunOut :=
  embed_file_system file_system_path ignore_folders ignore_extensions fs contents
    hashFn chunkFn actor_state

/-! ### The query path (core/procs.py `process_qry_cmd`, chroma_cli/cli.py
`search`) -/

/-- A stored chunk as the retriever returns it: `source` metadata (the file the
chunk came from) and the chunk text. -/
structure RankedDoc where
  source : String
  page_content : String
deriving Repr, DecidableEq

/-- The external vector store: collection name ↦ stored documents (`none`: the
collection was never created). -/
def VStore := String → Option (List RankedDoc)

/-- `Chroma(...)` get-or-creates its collection: a missing collection behaves
as an empty, lazily-created one (§6 external contract); no lookup error is
raised. -/
def chromaCollection (store : VStore) (collection_name : String) :
    List RankedDoc :=
  (store collection_name).getD []

/-- Ranking contract of the external similarity search: documents ordered by
decreasing similarity score to the query. -/
def docRank (sim : String → String → Int) (qry : String) (a b : RankedDoc) :
    Prop :=
  sim qry b.page_content ≤ sim qry a.page_content

instance (sim : String → String → Int) (qry : String) :
    DecidableRel (docRank sim qry) :=
  fun _ _ => Int.decLe _ _

instance (sim : String → String → Int) (qry : String) :
    IsTotal RankedDoc (docRank sim qry) :=
  ⟨fun a b => Int.le_total (sim qry b.page_content) (sim qry a.page_content)⟩

instance (sim : String → String → Int) (qry : String) :
    IsTrans RankedDoc (docRank sim qry) :=
  ⟨fun _ _ _ h1 h2 => le_trans h2 h1⟩

/-- `vector_store.as_retriever()` is called with no arguments (procs.py
line 30), so the external retriever uses the library's default similarity
search returning 4 results; the `search_kwargs={"k": 5}` variant in
`chroma_utls.create_retriever` is commented out. -/
def DEFAULT_RETRIEVER_K : Nat := 4

/-- `retriever.invoke(qry)` over the external store contract: the stored
documents ranked by decreasing similarity, truncated to the retriever's k. -/
def retrieverInvoke (sim : String → String → Int) (qry : String)
    (docs : List RankedDoc) (k : Nat) : List RankedDoc :=
  (List.insertionSort (docRank sim qry) docs).take k

/-- Error vocabulary of the spec's query path; the source never constructs
it. -/
inductive QryError : Type where
  | collectionNotFound (collection_name : String)
deriving Repr, DecidableEq

structure QryResp where
  documents : List RankedDoc
deriving Repr, DecidableEq

/-- `process_qry_cmd` (procs.py lines 34-48): reads only `cmd["qry"]` and
`cmd["file_system_path"]`; a `limit` field in the command is never consulted;
the response carries each document's `source` metadata and `page_content`; no
error path exists in the source. -/
def process_qry_cmd (sim : String → String → Int) (store : VStore)
    (file_system_path qry : String) (limit : Option Nat) :
    Except QryError QryResp :=
  let collection_name := translate_file_path_to_collection_name file_system_path
  let docs := chromaCollection store collection_name
  Except.ok ⟨retrieverInvoke sim qry docs DEFAULT_RETRIEVER_K⟩

/-- The request body assembled by the CLI `search` command (cli.py
lines 86-89): only `qry` and `file_system_path` are serialized; the parsed
`--limit` option is dropped. -/
def search_request_fields (query file_system_path : String) (limit : Nat) :
    List (String × String) :=
  [("qry", query), ("file_system_path", file_system_path)]

/-- The CLI `--limit` default (cli.py line 82). -/
def SEARCH_LIMIT_DEFAULT : Nat := 5

/-! ### Location of a file inside a tree (used to state exclusion correctness) -/

/-- `FileIn t anc f`: the tree contains a file named `f` in the directory
reached from `t` by descending through subdirectories named `anc`, in order. -/
inductive FileIn : FSTree → List String → String → Prop where
  | here {n : String} {subdirs : List FSTree} {files : List FileEntry}
      {e : FileEntry} : e ∈ files → FileIn (.node n subdirs files) [] e.name
  | there {n : String} {subdirs : List FSTree} {files : List FileEntry}
      {t : FSTree} {anc : List String} {f : String} :
      t ∈ subdirs → FileIn t anc f →
      FileIn (.node n subdirs files) (t.name :: anc) f

/-- The directory path `root/d₁/…/d_k`. -/
def joinPath (root : String) : List String → String
  | [] => root
  | d :: rest => joinPath (root ++ "/" ++ d) rest

/-- Shape of an embedding-run event trace started from a state whose literal
`"file_path"` binding is falsy: a sequence of completed per-file blocks
`embed, upsert, save`, each save persisting exactly the state produced by
recording that file's new hash under its fingerprint key. -/
inductive GoodTrace : AState → List Ev → Prop where
  | nil (st : AState) : GoodTrace st []
  | block (st : AState) (fp : String) (texts ids : List String) (h : String)
      (evs : List Ev) :
      GoodTrace (dictSet (dictSet st (translate_file_path_to_key fp) none)
        (translate_file_path_to_key fp) (some h)) evs →
      GoodTrace st
        (Ev.embedCall fp texts :: Ev.upsert fp ids ::
          Ev.save (dictSet (dictSet st (translate_file_path_to_key fp) none)
            (translate_file_path_to_key fp) (some h)) :: evs)

/-! ### Concrete instances used by witnesses and counterexamples -/

def demoHash : String → String := fun s => "#" ++ s

def demoChunk : String → List String := fun s => if s = "" then [] else [s]

def demoTree : FSTree := .node "r" [] [⟨"a.txt", some "hello"⟩]

def demoContents : String → Option String :=
  fun p => if p = "/r/a.txt" then some "hello" else none

/-- A fingerprint mapping recording, under the key of `/r/a.txt`, exactly the
hash of its current content. -/
def demoStateMatched : AState := [("/r/a__txt", some "#hello")]

def demoRun1 : RunOut :=
  embed_file_system "/r" [] [] (some demoTree) demoContents demoHash demoChunk []

def demoRun2 : RunOut :=
  embed_file_system "/r" [] [] (some demoTree) demoContents demoHash demoChunk
    demoRun1.state

/-- A dotless lowercase path is its own fingerprint key, and a literal
`"file_path"` binding makes the broken hash check truthy. -/
def staleTree : FSTree := .node "r" [] [⟨"x", some "hello"⟩]

def staleContents : String → Option String :=
  fun p => if p = "/r/x" then some "hello" else none

/-- Records a stale hash for `/r/x` together with a literal `"file_path"`
binding. -/
def staleState : AState := [("/r/x", some "#OLD"), ("file_path", some "w")]

/-- An unreadable file listed before a readable one. -/
def unreadableTree : FSTree :=
  .node "r" [] [⟨"a.bin", none⟩, ⟨"b.txt", some "hello"⟩]

def unreadableContents : String → Option String :=
  fun p => if p = "/r/b.txt" then some "hello" else none

/-- A zero-byte file: it is discovered and read, but chunks to nothing. -/
def emptyFileTree : FSTree := .node "r" [] [⟨"e.txt", some ""⟩]

def emptyFileContents : String → Option String :=
  fun p => if p = "/r/e.txt" then some "" else none

def sim0 : String → String → Int := fun _ _ => 0

def emptyStore : VStore := fun _ => none

def doc6 (i : Nat) : RankedDoc := ⟨"/r/f.txt", "c" ++ toString i⟩

/-- A store whose collection for root `/r` holds six documents. -/
def store6 : VStore := fun n =>
  if n = "r" then some [doc6 1, doc6 2, doc6 3, doc6 4, doc6 5, doc6 6]
  else none

/-- A tree with an excluded subdirectory, a retained subdirectory, and a file
matching an excluded extension. -/
def c9Tree : FSTree :=
  .node "r"
    [.node "skip" [] [⟨"s.txt", some "s"⟩], .node "ok" [] [⟨"b.txt", some "b"⟩]]
    [⟨"a.txt", some "a"⟩, ⟨"c.png", some "c"⟩]

/-! ### Dictionary lemmas -/

theorem dictMem_cons (p : String × Entry) (st : AState) (k : String) :
    dictMem (p :: st) k = (p.1 == k || dictMem st k) := by
  simp [dictMem, List.any_cons]

theorem find?_of_not_dictMem (st : AState) (k : String)
    (h : dictMem st k = false) : st.find? (fun p => p.1 == k) = none := by
  induction st with
  | nil => rfl
  | cons p st ih =>
    rw [dictMem_cons] at h
    rcases Bool.or_eq_false_iff.mp h with ⟨h1, h2⟩
    simp [List.find?, h1, ih h2]

theorem dictLookup_dictSet_self (st : AState) (k : String) (v : Entry) :
    dictLookup (dictSet st k v) k = some v := by
  unfold dictSet
  by_cases hm : dictMem st k = true
  · rw [if_pos hm]
    unfold dictLookup
    induction st with
    | nil => simp [dictMem] at hm
    | cons p st ih =>
      by_cases hp : (p.1 == k) = true
      · simp [List.find?, hp]
      · have hm' : dictMem st k = true := by simpa [dictMem, hp] using hm
        simpa [List.find?, hp] using ih hm'
  · rw [if_neg hm]
    unfold dictLookup
    rw [List.find?_append, find?_of_not_dictMem st k (by simpa using hm)]
    simp [List.find?]

theorem dictLookup_dictSet_ne (st : AState) (k k' : String) (v : Entry)
    (h : k' ≠ k) : dictLookup (dictSet st k v) k' = dictLookup st k' := by
  unfold dictSet
  by_cases hm : dictMem st k = true
  · rw [if_pos hm]
    unfold dictLookup
    clear hm
    induction st with
    | nil => rfl
    | cons p st ih =>
      by_cases hp : (p.1 == k) = true
      · have hpk : p.1 = k := by simpa using hp
        have h1 : (k == k') = false := by simp [Ne.symm h]
        have h2 : (p.1 == k') = false := by simp [hpk, Ne.symm h]
        simpa [List.find?, hp, h1, h2] using ih
      · by_cases hq : (p.1 == k') = true
        · simp [List.find?, hp, hq]
        · simpa [List.find?, hp, hq] using ih
  · rw [if_neg hm]
    unfold dictLookup
    rw [List.find?_append]
    have h1 : (k == k') = false := by simp [Ne.symm h]
    cases hf : st.find? (fun p => p.1 == k') <;> simp [List.find?, h1, hf]

theorem dictMem_dictSet_self (st : AState) (k : String) (v : Entry) :
    dictMem (dictSet st k v) k = true := by
  unfold dictSet
  by_cases hm : dictMem st k = true
  · rw [if_pos hm]
    unfold dictMem at hm ⊢
    obtain ⟨p, hp, hpk⟩ := List.any_eq_true.mp hm
    exact List.any_eq_true.mpr ⟨(k, v), List.mem_map.mpr ⟨p, hp, by simp [hpk]⟩, by simp⟩
  · rw [if_neg hm]
    unfold dictMem
    exact List.any_eq_true.mpr ⟨(k, v), by simp⟩

theorem filePathEntryTruthy_dictSet (st : AState) (k : String) (v : Entry)
    (h : k ≠ "file_path") :
    filePathEntryTruthy (dictSet st k v) = filePathEntryTruthy st := by
  unfold filePathEntryTruthy
  rw [dictLookup_dictSet_ne st k "file_path" v (Ne.symm h)]

/-! ### Path-shape lemmas -/

theorem slash_mem_append (a b : String) : '/' ∈ (a ++ "/" ++ b).data := by
  rw [String.data_append, String.data_append]
  exact List.mem_append.mpr (Or.inl (List.mem_append.mpr (Or.inr (by decide))))

theorem flattenFileDict_mem_slash (fd : List (String × List String)) (p : String)
    (h : p ∈ flattenFileDict fd) : '/' ∈ p.data := by
  obtain ⟨kv, _, hp⟩ := List.mem_flatMap.mp h
  obtain ⟨f, _, rfl⟩ := List.mem_map.mp hp
  exact slash_mem_append kv.1 f

theorem slash_mem_key (p : String) (h : '/' ∈ p.data) :
    '/' ∈ (translate_file_path_to_key p).data := by
  show '/' ∈ pyLower (replaceChar '.' ['_', '_'] p.data)
  unfold pyLower replaceChar
  refine List.mem_map.mpr ⟨'/', ?_, by decide⟩
  exact List.mem_flatMap.mpr ⟨'/', h, by decide⟩

theorem key_ne_file_path (p : String) (h : '/' ∈ p.data) :
    translate_file_path_to_key p ≠ "file_path" := by
  intro he
  have : '/' ∈ ("file_path" : String).data := he ▸ slash_mem_key p h
  revert this
  decide

/-! ### Theorems for the claims -/

/-- C10: `translate_file_path_to_key` is not injective: `/r/a.b` and `/r/a__b`
collide (the `.` → `__` substitution), as do `/r/A.txt` and `/r/a.txt`
(lowercasing), so two distinct files can share one fingerprint entry. -/
theorem c10_translate_file_path_to_key_not_injective :
    translate_file_path_to_key "/r/a.b" = translate_file_path_to_key "/r/a__b" ∧
    "/r/a.b" ≠ "/r/a__b" ∧
    translate_file_path_to_key "/r/A.txt" = translate_file_path_to_key "/r/a.txt" ∧
    "/r/A.txt" ≠ "/r/a.txt" := by
  refine ⟨by decide, by decide, by decide, by decide⟩

/-- C7 (counterexample): on a non-existent root the run does not abort and
reports nothing: `process_embed_cmd` merely logs the invalid directory,
`os.walk` silently yields nothing, and the run completes as an empty success
with no events and no error. -/
theorem c7_counterexample_missing_root_not_aborted :
    process_embed_cmd "/does-not-exist" [] [] none demoContents demoHash
      demoChunk [] = ⟨[], [], none⟩ := rfl

/-- C7 (amended): if the root path does not exist, tree discovery produces an
empty file map and the embedding run completes as an empty success — no events,
unchanged state, and no reported failure. -/
theorem c7_amended_missing_root_empty_success (file_system_path : String)
    (ignore_folders ignore_extensions : List String)
    (contents : String → Option String) (hashFn : String → String)
    (chunkFn : String → List String) (actor_state : AState) :
    process_embed_cmd file_system_path ignore_folders ignore_extensions none
      contents hashFn chunkFn actor_state = ⟨[], actor_state, none⟩ := rfl

/-- C5 (counterexample): querying a root that was never embedded (its
collection does not exist in the store) returns an empty successful result,
not a `CollectionNotFoundError`. -/
theorem c5_counterexample_no_error_on_missing_collection :
    process_qry_cmd sim0 emptyStore "/never-embedded" "q" none =
      Except.ok ⟨[]⟩ := rfl

/-- C5 (amended): for every query against a root whose collection does not
exist in the vector store, the Query Path returns an empty successful result
(the collection is created lazily); no `CollectionNotFoundError` is reported. -/
theorem c5_amended_missing_collection_empty_success
    (sim : String → String → Int) (store : VStore)
    (file_system_path qry : String) (limit : Option Nat)
    (h : store (translate_file_path_to_collection_name file_system_path) = none) :
    process_qry_cmd sim store file_system_path qry limit = Except.ok ⟨[]⟩ := by
  simp [process_qry_cmd, chromaCollection, retrieverInvoke, h]

/-- C5 (witness): the amended theorem applied to a concrete never-embedded
root. -/
theorem c5_amended_witness :
    process_qry_cmd sim0 emptyStore "/other/never" "hello" (some 5) =
      Except.ok ⟨[]⟩ :=
  c5_amended_missing_collection_empty_success sim0 emptyStore "/other/never"
    "hello" (some 5) rfl

/-- C1: the code does not implement "skip iff the recorded hash under the
file's key equals the current hash". Left conjunct: the mapping records under
`/r/a.txt`'s key exactly the hash of its current content, yet the run
re-embeds, re-upserts and re-saves the file — the skip check tests the raw
path and the literal string `"file_path"`, and never compares hashes. Right
conjunct: with a stale recorded hash but a truthy literal `"file_path"`
binding, the file is skipped although its recorded hash differs from the
current one. -/
theorem c1_skip_condition_diverges_from_hash_match :
    (dictLookup demoStateMatched (translate_file_path_to_key "/r/a.txt") =
        some (some (demoHash "hello")) ∧
      (embed_file_system "/r" [] [] (some demoTree) demoContents demoHash
          demoChunk demoStateMatched).events =
        [Ev.embedCall "/r/a.txt" ["hello"], Ev.upsert "/r/a.txt" ["/r/a.txt_0"],
          Ev.save [("/r/a__txt", some "#hello")]]) ∧
    (dictLookup staleState (translate_file_path_to_key "/r/x") =
        some (some "#OLD") ∧
      demoHash "hello" ≠ "#OLD" ∧
      (embed_file_system "/r" [] [] (some staleTree) staleContents demoHash
          demoChunk staleState).events = []) := by
  refine ⟨⟨by decide, ?_⟩, by decide, by decide, ?_⟩
  · simp only [embed_file_system, traverse_folder, demoTree, walk, walkSubdirs]
    decide
  · simp only [embed_file_system, traverse_folder, staleTree, walk, walkSubdirs]
    decide

/-- C2: running the pipeline twice over the unchanged tree `/r` is not
idempotent: the second run, starting from the state persisted by the first,
again calls the embedding provider and the vector store for `/r/a.txt`,
because the broken skip check never matches. -/
theorem c2_second_run_not_idempotent :
    demoRun1.err = none ∧
    demoRun1.state = [("/r/a__txt", some "#hello")] ∧
    Ev.embedCall "/r/a.txt" ["hello"] ∈ demoRun2.events ∧
    Ev.upsert "/r/a.txt" ["/r/a.txt_0"] ∈ demoRun2.events := by
  refine ⟨?_, ?_, ?_, ?_⟩ <;>
    · simp only [demoRun1, demoRun2, embed_file_system, traverse_folder,
        demoTree, walk, walkSubdirs]
      decide

theorem runLoop_err_ne_none_of_unreadable (contents : String → Option String)
    (hashFn : String → String) (chunkFn : String → List String) (fp : String)
    (hc : contents fp = none) :
    ∀ (l : List String) (st : AState), fp ∈ l →
      (runLoop contents hashFn chunkFn l st).err ≠ none := by
  intro l
  induction l with
  | nil => intro st h; simp at h
  | cons q rest ih =>
    intro st hmem
    rcases List.mem_cons.mp hmem with h | h
    · subst h
      simp [runLoop, processFile, hc]
    · rcases hq : processFile contents hashFn chunkFn st q with ⟨evs, st1, oerr⟩
      cases oerr with
      | some e => simp [runLoop, hq]
      | none =>
        simp only [runLoop, hq]
        exact ih st1 h

/-- C4 (counterexample): with `/r/a.bin` unreadable and `/r/b.txt` readable,
the run aborts at the first file with an uncaught loader error: no event is
emitted, the state is unchanged, `b.txt` is never reached, and the error is
reported — the unreadable file is not skipped and the run does not continue. -/
theorem c4_counterexample_unreadable_file_aborts_run :
    embed_file_system "/r" [] [] (some unreadableTree) unreadableContents
      demoHash demoChunk [] = ⟨[], [], some (.unreadable "/r/a.bin")⟩ := by
  simp only [embed_file_system, traverse_folder, unreadableTree, walk,
    walkSubdirs]
  decide

/-- C4 (amended): if reading or decoding a discovered file fails, the
exception propagates out of the per-file loop: the embedding run aborts with a
reported error instead of skipping the file and continuing with the next
one. -/
theorem c4_amended_unreadable_file_aborts_run (file_system_path : String)
    (ignore_folders ignore_extensions : List String) (fs : Option FSTree)
    (contents : String → Option String) (hashFn : String → String)
    (chunkFn : String → List String) (actor_state : AState) (fp : String)
    (hmem : fp ∈ flattenFileDict
      (traverse_folder file_system_path ignore_folders ignore_extensions fs))
    (hc : contents fp = none) :
    (embed_file_system file_system_path ignore_folders ignore_extensions fs
      contents hashFn chunkFn actor_state).err ≠ none :=
  runLoop_err_ne_none_of_unreadable contents hashFn chunkFn fp hc _ actor_state
    hmem

/-- C4 (witness): the amended theorem applied to the concrete unreadable
file `/r/a.bin`. -/
theorem c4_amended_witness :
    (embed_file_system "/r" [] [] (some unreadableTree) unreadableContents
      demoHash demoChunk []).err ≠ none :=
  c4_amended_unreadable_file_aborts_run "/r" [] [] (some unreadableTree)
    unreadableContents demoHash demoChunk [] "/r/a.bin"
    (by simp only [traverse_folder, unreadableTree, walk, walkSubdirs]; decide)
    (by decide)

/-- C6 (counterexample): against a collection holding six documents, with an
explicit limit of 1, the query path returns four results: the limit is never
forwarded or consulted, and the external retriever's library default of 4
applies — "at most `limit` results" fails. -/
theorem c6_counterexample_limit_one_returns_four :
    process_qry_cmd sim0 store6 "/r" "q" (some 1) =
      Except.ok ⟨[doc6 1, doc6 2, doc6 3, doc6 4]⟩ ∧
    ¬ ((4 : Nat) ≤ 1) := by
  exact ⟨rfl, by decide⟩

/-- C6 (amended): the query path ignores any caller-supplied limit — the CLI
parses `--limit` (default 5) but does not serialize it, and the API never
reads a limit — and always returns the external retriever's default number of
results (4, or fewer if the collection is smaller), ordered by decreasing
similarity to the query, each carrying its source file path and chunk text. -/
theorem c6_amended_limit_ignored_default_four (sim : String → String → Int)
    (store : VStore) (file_system_path qry : String) (lim1 lim2 : Option Nat)
    (n1 n2 : Nat) :
    process_qry_cmd sim store file_system_path qry lim1 =
      process_qry_cmd sim store file_system_path qry lim2 ∧
    search_request_fields qry file_system_path n1 =
      search_request_fields qry file_system_path n2 ∧
    SEARCH_LIMIT_DEFAULT = 5 ∧
    DEFAULT_RETRIEVER_K = 4 ∧
    ∃ resp, process_qry_cmd sim store file_system_path qry lim1 =
        Except.ok resp ∧
      resp.documents.length = min DEFAULT_RETRIEVER_K
        (chromaCollection store
          (translate_file_path_to_collection_name file_system_path)).length ∧
      List.Sorted (docRank sim qry) resp.documents ∧
      ∀ d ∈ resp.documents,
        d ∈ chromaCollection store
          (translate_file_path_to_collection_name file_system_path) := by
  refine ⟨rfl, rfl, rfl, rfl, _, rfl, ?_, ?_, ?_⟩
  · show (retrieverInvoke sim qry _ _).length = _
    rw [retrieverInvoke, List.length_take,
      (List.perm_insertionSort (docRank sim qry) _).length_eq]
  · exact List.Pairwise.sublist (List.take_sublist _ _)
      (List.sorted_insertionSort (docRank sim qry) _)
  · intro d hd
    have h1 : d ∈ List.insertionSort (docRank sim qry)
        (chromaCollection store
          (translate_file_path_to_collection_name file_system_path)) :=
      (List.take_sublist _ _).subset hd
    exact (List.mem_insertionSort (docRank sim qry)).mp h1

theorem processFile_embedCall_source (contents : String → Option String)
    (hashFn : String → String) (chunkFn : String → List String) (st : AState)
    (fp p : String) (texts : List String)
    (h : Ev.embedCall p texts ∈ (processFile contents hashFn chunkFn st fp).1) :
    p = fp ∧ ∃ text, contents fp = some text ∧ chunkFn text ≠ [] := by
  simp only [processFile] at h
  split at h
  · simp at h
  next text heq =>
    split at h
    · simp at h
    · split at h
      next hz => simp at h
      next hz =>
        have hne : chunkFn text ≠ [] := by
          intro he
          exact hz (by simp [he])
        by_cases hfp : filePathEntryTruthy st = true
        · simp only [if_pos hfp] at h
          split at h <;> simp at h <;> exact ⟨h.1, text, heq, hne⟩
        · simp only [if_neg hfp] at h
          split at h <;> simp at h <;> exact ⟨h.1, text, heq, hne⟩

theorem processFile_upsert_source (contents : String → Option String)
    (hashFn : String → String) (chunkFn : String → List String) (st : AState)
    (fp p : String) (ids : List String)
    (h : Ev.upsert p ids ∈ (processFile contents hashFn chunkFn st fp).1) :
    p = fp ∧ ∃ text, contents fp = some text ∧ chunkFn text ≠ [] := by
  simp only [processFile] at h
  split at h
  · simp at h
  next text heq =>
    split at h
    · simp at h
    · split at h
      next hz => simp at h
      next hz =>
        have hne : chunkFn text ≠ [] := by
          intro he
          exact hz (by simp [he])
        by_cases hfp : filePathEntryTruthy st = true
        · simp only [if_pos hfp] at h
          split at h <;> simp at h <;> exact ⟨h.1, text, heq, hne⟩
        · simp only [if_neg hfp] at h
          split at h <;> simp at h <;> exact ⟨h.1, text, heq, hne⟩

theorem processFile_state_lookup_eq (contents : String → Option String)
    (hashFn : String → String) (chunkFn : String → List String) (st : AState)
    (fp k : String)
    (hk : translate_file_path_to_key fp = k →
      ∃ c, contents fp = some c ∧ chunkFn c = []) :
    dictLookup (processFile contents hashFn chunkFn st fp).2.1 k =
      dictLookup st k := by
  simp only [processFile]
  split
  · rfl
  next text heq =>
    split
    · rfl
    · split
      · rfl
      next hz =>
        have hkey : translate_file_path_to_key fp ≠ k := by
          intro he
          obtain ⟨c, hc1, hc2⟩ := hk he
          rw [heq] at hc1
          cases hc1
          exact hz (by simp [hc2])
        by_cases hfp : filePathEntryTruthy st = true
        · simp only [if_pos hfp]
          split
          · exact dictLookup_dictSet_ne _ _ _ _ (Ne.symm hkey)
          · rfl
        · simp only [if_neg hfp]
          split
          · show dictLookup (dictSet (dictSet st _ none) _ _) k = _
            rw [dictLookup_dictSet_ne _ _ _ _ (Ne.symm hkey),
              dictLookup_dictSet_ne _ _ _ _ (Ne.symm hkey)]
          · exact dictLookup_dictSet_ne _ _ _ _ (Ne.symm hkey)

theorem runLoop_state_lookup_eq (contents : String → Option String)
    (hashFn : String → String) (chunkFn : String → List String) (k : String) :
    ∀ (l : List String) (st : AState),
      (∀ p ∈ l, translate_file_path_to_key p = k →
        ∃ c, contents p = some c ∧ chunkFn c = []) →
      dictLookup (runLoop contents hashFn chunkFn l st).state k =
        dictLookup st k := by
  intro l
  induction l with
  | nil => intro st _; rfl
  | cons q rest ih =>
    intro st hl
    rcases hq : processFile contents hashFn chunkFn st q with ⟨evs, st1, oerr⟩
    have hst1 : dictLookup st1 k = dictLookup st k := by
      have h2 := processFile_state_lookup_eq contents hashFn chunkFn st q k
        (fun he => hl q (by simp) he)
      rwa [hq] at h2
    cases oerr with
    | some e => simp only [runLoop, hq]; exact hst1
    | none =>
      simp only [runLoop, hq]
      rw [ih st1 (fun p hp he => hl p (by simp [hp]) he)]
      exact hst1

theorem runLoop_embedCall_source (contents : String → Option String)
    (hashFn : String → String) (chunkFn : String → List String) (p : String)
    (texts : List String) :
    ∀ (l : List String) (st : AState),
      Ev.embedCall p texts ∈ (runLoop contents hashFn chunkFn l st).events →
      ∃ text, contents p = some text ∧ chunkFn text ≠ [] := by
  intro l
  induction l with
  | nil => intro st h; simp [runLoop] at h
  | cons q rest ih =>
    intro st h
    rcases hq : processFile contents hashFn chunkFn st q with ⟨evs, st1, oerr⟩
    cases oerr with
    | some e =>
      simp only [runLoop, hq] at h
      obtain ⟨rfl, text, hc, hne⟩ :=
        processFile_embedCall_source contents hashFn chunkFn st q p texts
          (by rw [hq]; exact h)
      exact ⟨text, hc, hne⟩
    | none =>
      simp only [runLoop, hq] at h
      rcases List.mem_append.mp h with h | h
      · obtain ⟨rfl, text, hc, hne⟩ :=
          processFile_embedCall_source contents hashFn chunkFn st q p texts
            (by rw [hq]; exact h)
        exact ⟨text, hc, hne⟩
      · exact ih st1 h

theorem runLoop_upsert_source (contents : String → Option String)
    (hashFn : String → String) (chunkFn : String → List String) (p : String)
    (ids : List String) :
    ∀ (l : List String) (st : AState),
      Ev.upsert p ids ∈ (runLoop contents hashFn chunkFn l st).events →
      ∃ text, contents p = some text ∧ chunkFn text ≠ [] := by
  intro l
  induction l with
  | nil => intro st h; simp [runLoop] at h
  | cons q rest ih =>
    intro st h
    rcases hq : processFile contents hashFn chunkFn st q with ⟨evs, st1, oerr⟩
    cases oerr with
    | some e =>
      simp only [runLoop, hq] at h
      obtain ⟨rfl, text, hc, hne⟩ :=
        processFile_upsert_source contents hashFn chunkFn st q p ids
          (by rw [hq]; exact h)
      exact ⟨text, hc, hne⟩
    | none =>
      simp only [runLoop, hq] at h
      rcases List.mem_append.mp h with h | h
      · obtain ⟨rfl, text, hc, hne⟩ :=
          processFile_upsert_source contents hashFn chunkFn st q p ids
            (by rw [hq]; exact h)
        exact ⟨text, hc, hne⟩
      · exact ih st1 h

/-- C8: a discovered file whose chunking yields zero chunks (e.g. empty
content) triggers no embedding call and no upsert for that file, and — as
long as no other discovered path collides with its fingerprint key — leaves
its fingerprint entry unchanged, so it is re-processed on subsequent runs
until it gains content. -/
theorem c8_zero_chunk_file_no_calls_no_fingerprint (file_system_path : String)
    (ignore_folders ignore_extensions : List String) (fs : Option FSTree)
    (contents : String → Option String) (hashFn : String → String)
    (chunkFn : String → List String) (actor_state : AState) (fp c : String)
    (hc : contents fp = some c) (hz : chunkFn c = [])
    (hkey : ∀ p ∈ flattenFileDict
        (traverse_folder file_system_path ignore_folders ignore_extensions fs),
      translate_file_path_to_key p = translate_file_path_to_key fp →
      ∃ c', contents p = some c' ∧ chunkFn c' = []) :
    (∀ texts, Ev.embedCall fp texts ∉
      (embed_file_system file_system_path ignore_folders ignore_extensions fs
        contents hashFn chunkFn actor_state).events) ∧
    (∀ ids, Ev.upsert fp ids ∉
      (embed_file_system file_system_path ignore_folders ignore_extensions fs
        contents hashFn chunkFn actor_state).events) ∧
    dictLookup
      (embed_file_system file_system_path ignore_folders ignore_extensions fs
        contents hashFn chunkFn actor_state).state
      (translate_file_path_to_key fp) =
      dictLookup actor_state (translate_file_path_to_key fp) := by
  refine ⟨?_, ?_, ?_⟩
  · intro texts h
    obtain ⟨text, hc', hne⟩ := runLoop_embedCall_source contents hashFn chunkFn
      fp texts _ actor_state h
    rw [hc] at hc'
    cases hc'
    exact hne hz
  · intro ids h
    obtain ⟨text, hc', hne⟩ := runLoop_upsert_source contents hashFn chunkFn
      fp ids _ actor_state h
    rw [hc] at hc'
    cases hc'
    exact hne hz
  · exact runLoop_state_lookup_eq contents hashFn chunkFn
      (translate_file_path_to_key fp) _ actor_state hkey

/-- C8 (witness): the theorem applied to the concrete zero-byte file
`/r/e.txt`. -/
theorem c8_witness :
    (∀ texts, Ev.embedCall "/r/e.txt" texts ∉
      (embed_file_system "/r" [] [] (some emptyFileTree) emptyFileContents
        demoHash demoChunk []).events) ∧
    (∀ ids, Ev.upsert "/r/e.txt" ids ∉
      (embed_file_system "/r" [] [] (some emptyFileTree) emptyFileContents
        demoHash demoChunk []).events) ∧
    dictLookup
      (embed_file_system "/r" [] [] (some emptyFileTree) emptyFileContents
        demoHash demoChunk []).state
      (translate_file_path_to_key "/r/e.txt") =
      dictLookup [] (translate_file_path_to_key "/r/e.txt") :=
  c8_zero_chunk_file_no_calls_no_fingerprint "/r" [] [] (some emptyFileTree)
    emptyFileContents demoHash demoChunk [] "/r/e.txt" "" (by decide)
    (by decide)
    (by
      have hfd : flattenFileDict
          (traverse_folder "/r" [] [] (some emptyFileTree)) = ["/r/e.txt"] := by
        simp only [traverse_folder, emptyFileTree, walk, walkSubdirs]
        decide
      rw [hfd]
      intro p hp _
      rw [List.mem_singleton.mp hp]
      exact ⟨"", by decide, by decide⟩)

theorem walkSubdirs_mem (igF igE : List String) (root : String) :
    ∀ (l : List FSTree) (x : String × List String),
      x ∈ walkSubdirs igF igE root l →
      ∃ t ∈ l, t.name ∉ igF ∧ x ∈ walk igF igE (root ++ "/" ++ t.name) t := by
  intro l
  induction l with
  | nil => intro x hx; simp only [walkSubdirs] at hx; simp at hx
  | cons t ts ih =>
    intro x hx
    simp only [walkSubdirs] at hx
    rcases List.mem_append.mp hx with h | h
    · by_cases hn : t.name ∈ igF
      · rw [if_pos hn] at h; simp at h
      · rw [if_neg hn] at h
        exact ⟨t, List.mem_cons_self t ts, hn, h⟩
    · obtain ⟨u, hu, hn, hw⟩ := ih x h
      exact ⟨u, List.mem_cons_of_mem t hu, hn, hw⟩

theorem keptFileNames_mem (igE : List String) (files : List FileEntry)
    (f : String) (h : f ∈ keptFileNames igE files) :
    (∃ e ∈ files, e.name = f) ∧ ∀ x ∈ igE, pyEndsWith f x = false := by
  unfold keptFileNames at h
  by_cases he : igE.isEmpty = true
  · rw [if_pos he] at h
    obtain ⟨e, he1, he2⟩ := List.mem_map.mp h
    refine ⟨⟨e, he1, he2⟩, ?_⟩
    intro x hx
    rw [List.isEmpty_iff] at he
    subst he
    simp at hx
  · rw [if_neg he] at h
    obtain ⟨e, he1, he2⟩ := List.mem_map.mp h
    have he3 := List.mem_filter.mp he1
    refine ⟨⟨e, he3.1, he2⟩, ?_⟩
    intro x hx
    have h4 := he3.2
    subst he2
    simp only [Bool.not_eq_eq_eq_not, Bool.not_true, List.any_eq_false] at h4
    exact Bool.not_eq_true _ ▸ h4 x hx

theorem walk_sound_aux (igF igE : List String) :
    ∀ (N : Nat) (t : FSTree), sizeOf t ≤ N →
      ∀ (root dp : String) (fns : List String) (f : String),
        (dp, fns) ∈ walk igF igE root t → f ∈ fns →
        ((∃ anc, FileIn t anc f ∧ dp = joinPath root anc ∧
            ∀ d ∈ anc, d ∉ igF) ∧
          ∀ x ∈ igE, pyEndsWith f x = false) := by
  intro N
  induction N with
  | zero =>
    intro t ht
    exfalso
    cases t with
    | node n subdirs files => simp at ht
  | succ N ih =>
    intro t ht root dp fns f hmem hf
    cases t with
    | node n subdirs files =>
      simp only [walk] at hmem
      rcases List.mem_cons.mp hmem with h | h
      · have hdp : dp = root := congrArg Prod.fst h
        have hfns : fns = keptFileNames igE files := congrArg Prod.snd h
        subst hdp
        obtain ⟨⟨e, he, hen⟩, hext⟩ :=
          keptFileNames_mem igE files f (hfns ▸ hf)
        refine ⟨⟨[], ?_, rfl, by simp⟩, hext⟩
        rw [← hen]
        exact FileIn.here he
      · obtain ⟨t', ht', hn, hw⟩ :=
          walkSubdirs_mem igF igE root subdirs (dp, fns) h
        have hsz : sizeOf t' ≤ N := by
          have h1 := List.sizeOf_lt_sizeOf_of_mem ht'
          have h2 : 1 + sizeOf n + sizeOf subdirs + sizeOf files ≤ N + 1 := by
            simpa using ht
          omega
        obtain ⟨⟨anc, hin, hdp, hanc⟩, hext⟩ :=
          ih t' hsz (root ++ "/" ++ t'.name) dp fns f hw hf
        refine ⟨⟨t'.name :: anc, FileIn.there ht' hin, hdp, ?_⟩, hext⟩
        intro d hd
        rcases List.mem_cons.mp hd with rfl | hd
        · exact hn
        · exact hanc d hd

/-- C9: exclusion correctness of the Tree Walker. Every file name `f` listed
under a directory path `dp` in `traverse_folder`'s output arises from an actual
file of the tree reached by a descent chain `anc` in which no directory name is
in the excluded-folder set (excluded subtrees are never descended into), and
`f` does not end with any excluded extension suffix, regardless of
directory. -/
theorem c9_exclusion_correctness (folder_path : String)
    (ignore_folders ignore_extensions : List String) (t : FSTree) (dp : String)
    (fns : List String) (f : String)
    (hmem : (dp, fns) ∈ traverse_folder folder_path ignore_folders
      ignore_extensions (some t))
    (hf : f ∈ fns) :
    (∃ anc, FileIn t anc f ∧ dp = joinPath folder_path anc ∧
        ∀ d ∈ anc, d ∉ ignore_folders) ∧
      ∀ x ∈ ignore_extensions, pyEndsWith f x = false :=
  walk_sound_aux ignore_folders ignore_extensions (sizeOf t) t le_rfl
    folder_path dp fns f hmem hf

/-- C9 (witness): the theorem applied to a concrete tree with excluded folder
`skip` and excluded extension `.png`. -/
theorem c9_exclusion_witness :
    (∃ anc, FileIn c9Tree anc "b.txt" ∧ "/r/ok" = joinPath "/r" anc ∧
        ∀ d ∈ anc, d ∉ ["skip"]) ∧
      ∀ x ∈ [".png"], pyEndsWith "b.txt" x = false :=
  c9_exclusion_correctness "/r" ["skip"] [".png"] c9Tree "/r/ok" ["b.txt"]
    "b.txt"
    (by simp only [traverse_folder, c9Tree, walk, walkSubdirs]; decide)
    (by decide)

theorem processFile_cases (contents : String → Option String)
    (hashFn : String → String) (chunkFn : String → List String) (st : AState)
    (fp : String) (hst : filePathEntryTruthy st = false) :
    (∃ e, processFile contents hashFn chunkFn st fp = ([], st, some e)) ∨
    (processFile contents hashFn chunkFn st fp = ([], st, none)) ∨
    (∃ text, contents fp = some text ∧
      processFile contents hashFn chunkFn st fp =
        ([.embedCall fp (chunkFn text),
          .upsert fp ((List.range (chunkFn text).length).map
            (fun i => fp ++ "_" ++ toString i)),
          .save (dictSet (dictSet st (translate_file_path_to_key fp) none)
            (translate_file_path_to_key fp) (some (hashFn text)))],
         dictSet (dictSet st (translate_file_path_to_key fp) none)
           (translate_file_path_to_key fp) (some (hashFn text)), none)) := by
  cases hc : contents fp with
  | none => exact Or.inl ⟨.unreadable fp, by simp [processFile, hc]⟩
  | some text =>
    by_cases hskip : (dictMem st fp && filePathHashTruthy st) = true
    · exact Or.inr (Or.inl (by simp [processFile, hc, hskip]))
    · by_cases hz : (chunkFn text).isEmpty = true
      · exact Or.inr (Or.inl (by simp [processFile, hc, hskip, hz]))
      · refine Or.inr (Or.inr ⟨text, rfl, ?_⟩)
        have hmem : dictMem (dictSet st (translate_file_path_to_key fp) none)
            (translate_file_path_to_key fp) = true :=
          dictMem_dictSet_self _ _ _
        simp [processFile, hc, hskip, hz, hst, hmem]

theorem runLoop_goodTrace (contents : String → Option String)
    (hashFn : String → String) (chunkFn : String → List String) :
    ∀ (l : List String) (st : AState),
      filePathEntryTruthy st = false →
      (∀ p ∈ l, '/' ∈ p.data) →
      GoodTrace st (runLoop contents hashFn chunkFn l st).events := by
  intro l
  induction l with
  | nil => intro st _ _; exact GoodTrace.nil st
  | cons fp rest ih =>
    intro st hst hsl
    have hkey : translate_file_path_to_key fp ≠ "file_path" :=
      key_ne_file_path fp (hsl fp (by simp))
    rcases processFile_cases contents hashFn chunkFn st fp hst with
      ⟨e, hpf⟩ | hpf | ⟨text, hc, hpf⟩
    · simp only [runLoop, hpf]
      exact GoodTrace.nil st
    · simp only [runLoop, hpf]
      have hrec := ih st hst (fun p hp => hsl p (by simp [hp]))
      simpa using hrec
    · simp only [runLoop, hpf]
      have hst2 : filePathEntryTruthy
          (dictSet (dictSet st (translate_file_path_to_key fp) none)
            (translate_file_path_to_key fp) (some (hashFn text))) = false := by
        rw [filePathEntryTruthy_dictSet _ _ _ hkey,
          filePathEntryTruthy_dictSet _ _ _ hkey]
        exact hst
      have hrec := ih _ hst2 (fun p hp => hsl p (by simp [hp]))
      exact GoodTrace.block st fp _ _ _ _ hrec

theorem goodTrace_save_changed {st0 : AState} {evs : List Ev}
    (hg : GoodTrace st0 evs) :
    ∀ (n : Nat) (st : AState), Ev.save st ∈ evs.take n →
      ∀ k, dictLookup st k ≠ dictLookup st0 k →
      ∃ fp texts ids, k = translate_file_path_to_key fp ∧
        Ev.embedCall fp texts ∈ evs.take n ∧
        Ev.upsert fp ids ∈ evs.take n := by
  induction hg with
  | nil => intro n st h; simp at h
  | block st fp texts ids hsh evs hrec ih =>
    intro n st' hsave k hk
    rcases n with _ | _ | _ | m
    · simp at hsave
    · simp [List.take_succ_cons] at hsave
    · simp [List.take_succ_cons] at hsave
    · simp only [List.take_succ_cons] at hsave ⊢
      rcases List.mem_cons.mp hsave with habs | hsave
      · exact absurd habs (by simp)
      rcases List.mem_cons.mp hsave with habs | hsave
      · exact absurd habs (by simp)
      rcases List.mem_cons.mp hsave with heq | hsave
      · injection heq with hst'
        by_cases hkk : k = translate_file_path_to_key fp
        · exact ⟨fp, texts, ids, hkk, by simp, by simp⟩
        · exfalso
          apply hk
          rw [hst', dictLookup_dictSet_ne _ _ _ _ hkk,
            dictLookup_dictSet_ne _ _ _ _ hkk]
      · by_cases hkk : k = translate_file_path_to_key fp
        · exact ⟨fp, texts, ids, hkk, by simp, by simp⟩
        · have hmid : dictLookup
              (dictSet (dictSet st (translate_file_path_to_key fp) none)
                (translate_file_path_to_key fp) (some hsh)) k =
              dictLookup st k := by
            rw [dictLookup_dictSet_ne _ _ _ _ hkk,
              dictLookup_dictSet_ne _ _ _ _ hkk]
          have hk' : dictLookup st' k ≠ dictLookup
              (dictSet (dictSet st (translate_file_path_to_key fp) none)
                (translate_file_path_to_key fp) (some hsh)) k := by
            rw [hmid]; exact hk
          obtain ⟨fp', texts', ids', hkk', h1, h2⟩ := ih m st' hsave k hk'
          exact ⟨fp', texts', ids',  hkk',
            by simp [List.mem_cons_of_mem, h1],
            by simp [List.mem_cons_of_mem, h2]⟩

theorem goodTrace_upsert_save {st0 : AState} {evs : List Ev}
    (hg : GoodTrace st0 evs) :
    ∀ (i : Nat) (fp : String) (ids : List String),
      evs[i]? = some (Ev.upsert fp ids) →
      ∃ st h2, evs[i+1]? = some (Ev.save st) ∧
        dictLookup st (translate_file_path_to_key fp) = some (some h2) := by
  induction hg with
  | nil => intro i fp ids h; simp at h
  | block st fp' texts ids' hsh evs hrec ih =>
    intro i fp ids hi
    rcases i with _ | _ | _ | m
    · simp at hi
    · simp only [List.getElem?_cons_succ, List.getElem?_cons_zero] at hi
      injection hi with hi
      injection hi with hfp hids
      subst hfp
      refine ⟨dictSet (dictSet st (translate_file_path_to_key fp') none)
        (translate_file_path_to_key fp') (some hsh), hsh, ?_, ?_⟩
      · simp
      · exact dictLookup_dictSet_self _ _ _
    · simp at hi
    · simp only [List.getElem?_cons_succ] at hi ⊢
      exact ih m fp ids hi

/-- C3: durability invariant of the embedding run. Starting from any loaded
actor state without a truthy literal `"file_path"` binding (the states the
pipeline itself produces never have one, since every fingerprint key contains
`/`): (1) for every interruption point `n`, any mapping persisted within the
first `n` events differs from the initial mapping only at fingerprint keys of
files whose embedding call and upsert already occurred among those `n` events
— a hash entry is set and persisted only after that file's chunks were
embedded and upserted, so an interruption never leaves a recorded hash for a
non-upserted file and loses at most the in-flight file's progress; (2) every
upsert is immediately followed by a persist of the full mapping in which the
just-embedded file's key carries its new hash. -/
theorem c3_hash_persisted_only_after_upsert (file_system_path : String)
    (ignore_folders ignore_extensions : List String) (fs : Option FSTree)
    (contents : String → Option String) (hashFn : String → String)
    (chunkFn : String → List String) (actor_state : AState)
    (h0 : filePathEntryTruthy actor_state = false) :
    (∀ (n : Nat) (st : AState),
      Ev.save st ∈ (embed_file_system file_system_path ignore_folders
        ignore_extensions fs contents hashFn chunkFn
        actor_state).events.take n →
      ∀ k, dictLookup st k ≠ dictLookup actor_state k →
      ∃ fp texts ids, k = translate_file_path_to_key fp ∧
        Ev.embedCall fp texts ∈ (embed_file_system file_system_path
          ignore_folders ignore_extensions fs contents hashFn chunkFn
          actor_state).events.take n ∧
        Ev.upsert fp ids ∈ (embed_file_system file_system_path ignore_folders
          ignore_extensions fs contents hashFn chunkFn
          actor_state).events.take n) ∧
    (∀ (i : Nat) (fp : String) (ids : List String),
      (embed_file_system file_system_path ignore_folders ignore_extensions fs
        contents hashFn chunkFn actor_state).events[i]? =
        some (Ev.upsert fp ids) →
      ∃ st h2, (embed_file_system file_system_path ignore_folders
          ignore_extensions fs contents hashFn chunkFn
          actor_state).events[i+1]? = some (Ev.save st) ∧
        dictLookup st (translate_file_path_to_key fp) = some (some h2)) := by
  have hg := runLoop_goodTrace contents hashFn chunkFn
    (flattenFileDict (traverse_folder file_system_path ignore_folders
      ignore_extensions fs)) actor_state h0
    (fun p hp => flattenFileDict_mem_slash _ p hp)
  exact ⟨goodTrace_save_changed hg, goodTrace_upsert_save hg⟩

/-- C3 (witness): the theorem applied to a concrete run over `/r` from the
empty initial mapping. -/
theorem c3_witness :
    (∀ (n : Nat) (st : AState),
      Ev.save st ∈ (embed_file_system "/r" [] [] (some demoTree) demoContents
        demoHash demoChunk []).events.take n →
      ∀ k, dictLookup st k ≠ dictLookup [] k →
      ∃ fp texts ids, k = translate_file_path_to_key fp ∧
        Ev.embedCall fp texts ∈ (embed_file_system "/r" [] [] (some demoTree)
          demoContents demoHash demoChunk []).events.take n ∧
        Ev.upsert fp ids ∈ (embed_file_system "/r" [] [] (some demoTree)
          demoContents demoHash demoChunk []).events.take n) ∧
    (∀ (i : Nat) (fp : String) (ids : List String),
      (embed_file_system "/r" [] [] (some demoTree) demoContents demoHash
        demoChunk []).events[i]? = some (Ev.upsert fp ids) →
      ∃ st h2, (embed_file_system "/r" [] [] (some demoTree) demoContents
          demoHash demoChunk []).events[i+1]? = some (Ev.save st) ∧
        dictLookup st (translate_file_path_to_key fp) = some (some h2)) :=
  c3_hash_persisted_only_after_upsert "/r" [] [] (some demoTree) demoContents
    demoHash demoChunk [] (by decide)

end Cossessor
